import Mathlib

/-!
# Git Town: branch hierarchy, sync state and squash-author resolution

A shallow embedding of `src/tools/gittools/config.go`, `src/tools/gittools/branch.go`,
`src/lib/promptlib/squash_commit_author.go` and `src/script/script.go`.

Go strings are embedded as Lean `String`s; the functions of Go's `strings`
package that the code uses are defined on the underlying character lists.
The external `git` process is embedded as explicit state: the configuration
store is passed in and returned, the text a query prints is an argument.
-/

namespace GitTown

/-! ## The parts of Go's `strings` package used by the code -/

/-- Cut a character list at every occurrence of `sep`. The result is never empty:
    a list without `sep` gives one piece, the empty list gives one empty piece. -/
def splitChars (sep : Char) : List Char → List (List Char)
  | [] => [[]]
  | c :: cs =>
    if c = sep then [] :: splitChars sep cs
    else
      match splitChars sep cs with
      | [] => [[c]]
      | w :: ws => (c :: w) :: ws

/-- Go `strings.Split(s, sep)` for a separator of one character
    (the code only splits at `" "`, `"\n"` and `"\t"`). -/
def Split (s : String) (sep : Char) : List String :=
  (splitChars sep s.data).map String.mk

/-- Concatenate character lists with `sep` between neighbours. -/
def joinChars (sep : Char) : List (List Char) → List Char
  | [] => []
  | [w] => w
  | w :: w2 :: ws => w ++ sep :: joinChars sep (w2 :: ws)

/-- Go `strings.Join(elems, sep)` for a separator of one character. -/
def Join (elems : List String) (sep : Char) : String :=
  String.mk (joinChars sep (elems.map String.data))

/-- Go `strings.TrimPrefix(s, pre)` on character lists. -/
def trimPrefixChars (s pre : List Char) : List Char :=
  if pre.isPrefixOf s then s.drop pre.length else s

/-- Go `strings.TrimPrefix(s, pre)`. -/
def TrimPrefix (s pre : String) : String :=
  String.mk (trimPrefixChars s.data pre.data)

/-- Go `strings.TrimSuffix(s, suf)` on character lists. -/
def trimSuffixChars (s suf : List Char) : List Char :=
  if suf.isSuffixOf s then s.take (s.length - suf.length) else s

/-- Go `strings.TrimSuffix(s, suf)`. -/
def TrimSuffix (s suf : String) : String :=
  String.mk (trimSuffixChars s.data suf.data)

/-- Go `unicode.IsSpace`: the white space characters of Unicode. -/
def isSpace (c : Char) : Bool :=
  c = '\t' || c = '\n' || c.toNat = 0x0B || c.toNat = 0x0C || c = '\r' || c = ' '
    || c.toNat = 0x85 || c.toNat = 0xA0 || c.toNat = 0x1680
    || (0x2000 ≤ c.toNat && c.toNat ≤ 0x200A)
    || c.toNat = 0x2028 || c.toNat = 0x2029 || c.toNat = 0x202F || c.toNat = 0x205F
    || c.toNat = 0x3000

/-- Drop the characters satisfying `p` from both ends of a character list. -/
def trimChars (p : Char → Bool) (s : List Char) : List Char :=
  ((s.dropWhile p).reverse.dropWhile p).reverse

/-- Go `strings.TrimSpace(s)`. -/
def TrimSpace (s : String) : String :=
  String.mk (trimChars isSpace s.data)

/-- Go `strings.Trim(s, cutset)`: drops leading and trailing characters that occur in `cutset`. -/
def Trim (s cutset : String) : String :=
  String.mk (trimChars (fun c => cutset.data.contains c) s.data)

/-- Replace the first occurrence of the non-empty list `old` by `new`. -/
def replaceFirstChars (old new : List Char) : List Char → List Char
  | [] => []
  | c :: cs =>
    if old.isPrefixOf (c :: cs) then new ++ (c :: cs).drop old.length
    else c :: replaceFirstChars old new cs

/-- Go `strings.Replace(s, old, new, 1)` for a non-empty `old`. -/
def ReplaceFirst (s old new : String) : String :=
  String.mk (replaceFirstChars old.data new.data s.data)

/-! ## The configuration store -/

/-- Modelled from the spec: the configuration store kept by `git config`, which is not
    part of the sources. It is "a flat, namespaced key/value store"; only the
    repository-local scope is held, the one every operation below reads and writes.
    The entries are in the store's key enumeration order. -/
structure ConfigStore where
  entries : List (String × String)
  deriving DecidableEq, Repr

/-- The store without any entry. -/
def ConfigStore.empty : ConfigStore := ⟨[]⟩

/-- Modelled from the spec: the text printed by `git config -l --local --name`
    (`listKeysMatching` before filtering): one stored key per line. -/
def ConfigStore.keyListing (store : ConfigStore) : String :=
  Join (store.entries.map Prod.fst) '\n'

/-- Modelled from the spec: the text printed by `git config --local key`
    (`get(key, scope) -> string | absent`, absent "surfaced to callers as empty string"). -/
def ConfigStore.value (store : ConfigStore) (key : String) : String :=
  (store.entries.lookup key).getD ""

/-- Modelled from the spec: `OutputContainsLine` of the command runner, which is not part
    of the sources: whether one line of the output is the given text. -/
def OutputContainsLine (output line : String) : Bool :=
  (Split output '\n').contains line

/-- Function `hasConfigurationValue("local", key)` (config.go:250). -/
def hasConfigurationValue (store : ConfigStore) (key : String) : Bool :=
  OutputContainsLine store.keyListing key

/-- Function `getLocalConfigurationValue` (config.go:221): the empty string unless the key is listed. -/
def getLocalConfigurationValue (store : ConfigStore) (key : String) : String :=
  if hasConfigurationValue store key then store.value key else ""

/-- Modelled from the spec: `set(key, value, scope)` as run by `setConfigurationValue`
    (config.go:254, `git config key value`): an existing key gets the new value in place,
    a new key is added at the end. -/
def setConfigurationValue (store : ConfigStore) (key value : String) : ConfigStore :=
  if store.entries.any (fun e => e.1 = key) then
    ⟨store.entries.map (fun e => if e.1 = key then (key, value) else e)⟩
  else ⟨store.entries ++ [(key, value)]⟩

/-- Modelled from the spec: `unset(key)` as run by `removeConfigurationValue`
    (config.go:262, `git config --unset key`). -/
def removeConfigurationValue (store : ConfigStore) (key : String) : ConfigStore :=
  ⟨store.entries.filter (fun e => e.1 ≠ key)⟩

/-- Function `GetAncestorBranches` (config.go:41). -/
def GetAncestorBranches (store : ConfigStore) (branchName : String) : List String :=
  let value := getLocalConfigurationValue store ("git-town-branch." ++ branchName ++ ".ancestors")
  if value = "" then [] else Split value ' '

/-- Function `SetAncestorBranches` (config.go:170). -/
def SetAncestorBranches (store : ConfigStore) (branchName : String)
    (ancestorBranches : List String) : ConfigStore :=
  setConfigurationValue store ("git-town-branch." ++ branchName ++ ".ancestors")
    (Join ancestorBranches ' ')

/-- The regular expressions config.go compiles: both have the shape `^<lead>.*<tail>$`
    for literal texts `lead` and `tail`. -/
structure KeyPattern where
  lead : String
  tail : String

/-- Go `regexp.MatchString` for `^<lead>.*<tail>$` on character lists: without flags `^` and
    `$` stand for the two ends of the text and `.` for any character but the line feed. -/
def matchKeyChars (lead tail s : List Char) : Bool :=
  lead.isPrefixOf s && tail.isSuffixOf (s.drop lead.length)
    && ((s.drop lead.length).take ((s.drop lead.length).length - tail.length)).all
        (fun c => c ≠ '\n')

/-- Go `configRegexp.MatchString(line)`. -/
def KeyPattern.MatchString (p : KeyPattern) (line : String) : Bool :=
  matchKeyChars p.lead.data p.tail.data line.data

/-- The pattern `"^git-town-branch\\..*\\.ancestors$"` (config.go:26). -/
def ancestorsKeyPattern : KeyPattern := ⟨"git-town-branch.", ".ancestors"⟩

/-- The pattern `"^git-town-branch\\..*\\.parent$"` (config.go:52). -/
def parentKeyPattern : KeyPattern := ⟨"git-town-branch.", ".parent"⟩

/-- Function `getConfigurationKeysMatching` (config.go:238): the lines of the key listing that match. -/
def getConfigurationKeysMatching (store : ConfigStore) (toMatch : KeyPattern) : List String :=
  (Split store.keyListing '\n').filter (fun line => toMatch.MatchString line)

/-- Function `DeleteAllAncestorBranches` (config.go:25): the keys are listed once, then removed one
    after the other. -/
def DeleteAllAncestorBranches (store : ConfigStore) : ConfigStore :=
  (getConfigurationKeysMatching store ancestorsKeyPattern).foldl removeConfigurationValue store

/-- Function `DeleteParentBranch` (config.go:33). -/
def DeleteParentBranch (store : ConfigStore) (branchName : String) : ConfigStore :=
  removeConfigurationValue store ("git-town-branch." ++ branchName ++ ".parent")

/-- Function `GetParentBranch` (config.go:82). -/
def GetParentBranch (store : ConfigStore) (branchName : String) : String :=
  getLocalConfigurationValue store ("git-town-branch." ++ branchName ++ ".parent")

/-- Function `SetParentBranch` (config.go:182). -/
def SetParentBranch (store : ConfigStore) (branchName parentBranchName : String) : ConfigStore :=
  setConfigurationValue store ("git-town-branch." ++ branchName ++ ".parent") parentBranchName

/-- Function `GetChildBranches` (config.go:51): one child per matching line whose value is the branch. -/
def GetChildBranches (store : ConfigStore) (branchName : String) : List String :=
  ((getConfigurationKeysMatching store parentKeyPattern).filter
      (fun key => getLocalConfigurationValue store key = branchName)).map
    (fun key => TrimSuffix (TrimPrefix key "git-town-branch.") ".parent")

/-- Function `HasCompiledAncestorBranches` (config.go:147). -/
def HasCompiledAncestorBranches (store : ConfigStore) (branchName : String) : Bool :=
  (GetAncestorBranches store branchName).length > 0

/-- Function `GetPerennialBranches` (config.go:87). -/
def GetPerennialBranches (store : ConfigStore) : List String :=
  let result := getLocalConfigurationValue store "git-town.perennial-branch-names"
  if result = "" then [] else Split result ' '

/-- Function `SetPerennialBranches` (config.go:187). -/
def SetPerennialBranches (store : ConfigStore) (branchNames : List String) : ConfigStore :=
  setConfigurationValue store "git-town.perennial-branch-names" (Join branchNames ' ')

/-- Function `AddToPerennialBranches` (config.go:19). -/
def AddToPerennialBranches (store : ConfigStore) (branchName : String) : ConfigStore :=
  SetPerennialBranches store (GetPerennialBranches store ++ [branchName])

/-- One hierarchy edit: a call of `SetParentBranch` or of `DeleteParentBranch`. -/
inductive ParentEdit where
  | setParent (branchName parentBranchName : String)
  | deleteParent (branchName : String)
  deriving DecidableEq, Repr

/-- The store after one hierarchy edit. -/
def ParentEdit.apply (store : ConfigStore) : ParentEdit → ConfigStore
  | .setParent b p => SetParentBranch store b p
  | .deleteParent b => DeleteParentBranch store b

/-- The store reached from the empty store by a sequence of hierarchy edits. -/
def storeAfter (edits : List ParentEdit) : ConfigStore :=
  edits.foldl ParentEdit.apply ConfigStore.empty

/-! ## Branches and their tracking branches (branch.go) -/

/-- What the sync queries read from the repository: the text printed by `git branch -r`
    and the commit hash `GetBranchSha` finds for a branch name (`GetBranchSha` is not part
    of the sources and is taken as given). -/
structure Repository where
  remoteBranches : String
  GetBranchSha : String → String

/-- Function `GetTrackingBranchName` (branch.go:70). -/
def GetTrackingBranchName (branchName : String) : String :=
  "origin/" ++ branchName

/-- Function `HasBranch` (branch.go:76), on the text printed by `git branch -a`. -/
def HasBranch (output : String) (branchName : String) : Bool :=
  (Split output '\n').any (fun line =>
    ReplaceFirst (TrimSpace (Trim line "* ")) "remotes/origin/" "" = branchName)

/-- Function `HasTrackingBranch` (branch.go:90). -/
def HasTrackingBranch (repo : Repository) (branchName : String) : Bool :=
  let trackingBranchName := GetTrackingBranchName branchName
  (Split repo.remoteBranches '\n').any (fun line => TrimSpace line = trackingBranchName)

/-- Function `IsBranchInSync` (branch.go:101). -/
def IsBranchInSync (repo : Repository) (branchName : String) : Bool :=
  if HasTrackingBranch repo branchName then
    let localSha := repo.GetBranchSha branchName
    let remoteSha := repo.GetBranchSha (GetTrackingBranchName branchName)
    localSha = remoteSha
  else true

/-- The normalisation the specification words for `branchExists`: strip the `*` marker and
    white space, then remove a leading `remotes/origin/` and nothing else. -/
def normalizeLineSpec (line : String) : String :=
  TrimPrefix (TrimSpace (Trim line "* ")) "remotes/origin/"

/-- The specification's `branchExists`: some line of the listing normalises to the name. -/
def branchExistsSpec (output : String) (name : String) : Bool :=
  (Split output '\n').any (fun line => normalizeLineSpec line = name)

/-! ## The author of a squash commit (squash_commit_author.go) -/

/-- The struct `branchAuthor` (squash_commit_author.go:34). -/
structure branchAuthor where
  NameAndEmail : String
  NumberOfCommits : String
  deriving DecidableEq, Repr

/-- How a Go function of result type `(T, error)` ends: with a value and a nil error, with
    an error handed back to the caller, or with the process aborted (`exit.OnWrap` on an
    error, or a run-time panic such as an index out of range). -/
inductive Outcome (α : Type) where
  | ok (value : α)
  | error (message : String)
  | fatal (message : String)
  deriving DecidableEq, Repr

/-- The loop of `getBranchAuthors` (squash_commit_author.go:58): `result` holds the authors
    of the lines read so far; `parts[1]` panics on a line without a tab. -/
def getBranchAuthorsLoop (result : List branchAuthor) : List String → Outcome (List branchAuthor)
  | [] => .ok result
  | line :: rest =>
    match Split (TrimSpace line) '\t' with
    | p0 :: p1 :: _ => getBranchAuthorsLoop (result ++ [⟨p1, p0⟩]) rest
    | _ => .fatal "index out of range"

/-- Function `getBranchAuthors` (squash_commit_author.go:56), on the text printed by
    `git shortlog -s -n -e <main>..<branch>`. -/
def getBranchAuthors (output : String) : Outcome (List branchAuthor) :=
  getBranchAuthorsLoop [] (Split output '\n')

/-- The text of a character list before its first tab; all of it when it has no tab. -/
def beforeTab (s : List Char) : List Char :=
  s.takeWhile (fun c => c ≠ '\t')

/-- The text of a character list after its first tab; nothing when it has no tab. -/
def afterTab (s : List Char) : List Char :=
  (s.dropWhile (fun c => c ≠ '\t')).drop 1

/-- The author the specification reads from one line of commit statistics, once the white
    space around the line is trimmed: `NumberOfCommits` is the text before the first tab,
    `NameAndEmail` the text after the first tab up to the next tab. -/
def authorOfLineSpec (line : String) : branchAuthor :=
  { NameAndEmail := String.mk (beforeTab (afterTab (TrimSpace line).data))
    NumberOfCommits := String.mk (beforeTab (TrimSpace line).data) }

/-- Whether a character is one of `0` to `9`. -/
def isDigit (c : Char) : Bool :=
  48 ≤ c.toNat && c.toNat ≤ 57

/-- Go `numericRegex.MatchString(s)` for the pattern `"^[0-9]+$"` (squash_commit_author.go:67):
    the whole text is one or more of the digits `0` to `9`. -/
def matchNumeric (s : String) : Bool :=
  !s.data.isEmpty && s.data.all isDigit

/-- The number a list of decimal digits denotes, most significant digit first;
    `none` when the list is empty or holds another character. -/
def parseDigits (acc : Nat) : List Char → Option Nat
  | [] => none
  | [c] => if isDigit c then some (10 * acc + (c.toNat - 48)) else none
  | c :: c2 :: cs => if isDigit c then parseDigits (10 * acc + (c.toNat - 48)) (c2 :: cs) else none

/-- The largest value of Go's `int` on a 64-bit platform. -/
def maxInt : Nat := 2 ^ 63 - 1

/-- Go `strconv.Atoi` on a 64-bit platform: an optional sign and decimal digits; an error for
    any other text (`invalid syntax`) and for a number `int` cannot hold
    (`value out of range`). -/
def Atoi (s : String) : Except String Int :=
  match s.data with
  | '-' :: cs =>
    match parseDigits 0 cs with
    | none => .error "invalid syntax"
    | some n => if n ≤ maxInt + 1 then .ok (-(n : Int)) else .error "value out of range"
  | '+' :: cs =>
    match parseDigits 0 cs with
    | none => .error "invalid syntax"
    | some n => if n ≤ maxInt then .ok (n : Int) else .error "value out of range"
  | cs =>
    match parseDigits 0 cs with
    | none => .error "invalid syntax"
    | some n => if n ≤ maxInt then .ok (n : Int) else .error "value out of range"

/-- Function `parseAuthorNumber` (squash_commit_author.go:79): `exit.OnWrap` aborts on an error of
    `Atoi`, a number outside `1..len(authors)` is the error `Invalid author number`. -/
def parseAuthorNumber (userInput : String) (authors : List branchAuthor) : Outcome String :=
  match Atoi userInput with
  | .error _ => .fatal "Error parsing string to integer"
  | .ok index =>
    if index ≥ 1 ∧ index ≤ (authors.length : Int) then
      match authors[(index - 1).toNat]? with
      | some author => .ok author.NameAndEmail
      | none => .fatal "index out of range"
    else .error "Invalid author number"

/-- Function `parseAuthor` (squash_commit_author.go:66). -/
def parseAuthor (userInput : String) (authors : List branchAuthor) : Outcome String :=
  if matchNumeric userInput then parseAuthorNumber userInput authors
  else if userInput = "" then
    match authors with
    | author :: _ => .ok author.NameAndEmail
    | [] => .fatal "index out of range"
  else .ok userInput

/-- The integer that a text of decimal digits denotes, read from the left. -/
def decimalValue (s : String) : Nat :=
  s.data.foldl (fun n c => 10 * n + (c.toNat - 48)) 0

/-- The user-input source and the operator's screen: the lines `GetUserInput` has still to
    deliver, first one first, and the error messages `PrintError` has shown, oldest first. -/
structure Console where
  pending : List String
  reported : List String
  deriving DecidableEq, Repr

/-- How an interactive function ends: it returns a value, the process is aborted, or it
    waits for a line of input that never comes. Each case holds the console it leaves. -/
inductive Interaction (α : Type) where
  | done (value : α) (console : Console)
  | aborted (message : String) (console : Console)
  | waiting (console : Console)
  deriving DecidableEq, Repr

/-- The loop of `askForAuthor` (squash_commit_author.go:45) over the pending input lines;
    `reported` holds the error messages shown so far. -/
def askForAuthorLoop (authors : List branchAuthor) (reported : List String) :
    List String → Interaction String
  | [] => .waiting ⟨[], reported⟩
  | input :: rest =>
    match parseAuthor input authors with
    | .ok author => .done author ⟨rest, reported⟩
    | .error message => askForAuthorLoop authors (reported ++ [message]) rest
    | .fatal message => .aborted message ⟨rest, reported⟩

/-- Function `askForAuthor` (squash_commit_author.go:45). -/
def askForAuthor (authors : List branchAuthor) (console : Console) : Interaction String :=
  askForAuthorLoop authors console.reported console.pending

/-- Function `GetSquashCommitAuthor` (squash_commit_author.go:21), on the text printed by the
    commit statistics query for the branch. -/
def GetSquashCommitAuthor (output : String) (console : Console) : Interaction String :=
  match getBranchAuthors output with
  | .ok authors =>
    match authors with
    | [author] => .done author.NameAndEmail console
    | _ => askForAuthor authors console
  | .error message => .aborted message console
  | .fatal message => .aborted message console

/-! ## Running commands (script.go) -/

/-- Modelled from the spec: the state of the package `dryrun`, which is not part of the
    sources: whether dry-run mode is on, and the in-memory "current branch" override. -/
structure DryRun where
  active : Bool
  currentBranchName : String
  deriving DecidableEq, Repr

/-- Modelled from the spec: `dryrun.SetCurrentBranchName`, which "updates an in-memory
    current branch override". -/
def DryRun.SetCurrentBranchName (d : DryRun) (branchName : String) : DryRun :=
  { d with currentBranchName := branchName }

/-- The machine `RunCommand` runs on: the value of `runtime.GOOS`, and what running a
    process with the given arguments returns (`none` for a nil error). -/
structure Host where
  GOOS : String
  run : List String → Option String

/-- What a call of `RunCommand` leaves behind: the error it returns (`none` for nil), or
    `panicked` for a run-time panic; the dry-run state; the processes it has started. -/
structure RunResult where
  panicked : Bool
  err : Option String
  dryrun : DryRun
  started : List (List String)
  deriving DecidableEq, Repr

/-- Function `RunCommand` (script.go:58). The call of `PrintCommand` shows the command on the
    console; it changes neither the dry-run state nor what is returned. -/
def RunCommand (host : Host) (dryrun : DryRun) (cmd : List String) : RunResult :=
  if dryrun.active then
    match cmd with
    | ["git", "checkout", branch] => ⟨false, none, dryrun.SetCurrentBranchName branch, []⟩
    | _ => ⟨false, none, dryrun, []⟩
  else
    let cmd := if host.GOOS = "windows" then ["cmd", "/C"] ++ cmd else cmd
    match cmd with
    | [] => ⟨true, none, dryrun, []⟩
    | name :: args => ⟨false, host.run (name :: args), dryrun, [name :: args]⟩

/-! ## Splitting and joining -/

theorem splitChars_ne_nil (sep : Char) (s : List Char) : splitChars sep s ≠ [] := by
  cases s with
  | nil => simp [splitChars]
  | cons c cs =>
    unfold splitChars
    split
    · simp
    · split <;> simp

theorem splitChars_of_not_mem (sep : Char) (s : List Char) (h : sep ∉ s) :
    splitChars sep s = [s] := by
  induction s with
  | nil => rfl
  | cons c cs ih =>
    have hc : c ≠ sep := fun e => h (by simp [e])
    have hcs : sep ∉ cs := fun e => h (by simp [e])
    simp [splitChars, hc, ih hcs]

theorem splitChars_append_sep (sep : Char) (a b : List Char) :
    splitChars sep (a ++ sep :: b) = splitChars sep a ++ splitChars sep b := by
  induction a with
  | nil => simp [splitChars]
  | cons c cs ih =>
    by_cases hc : c = sep
    · simp [splitChars, hc, ih]
    · have hne := splitChars_ne_nil sep cs
      cases hsp : splitChars sep cs with
      | nil => exact absurd hsp hne
      | cons w ws => simp [splitChars, hc, ih, hsp]

theorem splitChars_joinChars (sep : Char) (ws : List (List Char)) (hne : ws ≠ []) :
    splitChars sep (joinChars sep ws) = ws.flatMap (splitChars sep) := by
  induction ws with
  | nil => exact absurd rfl hne
  | cons w rest ih =>
    cases rest with
    | nil => simp [joinChars]
    | cons w2 rest2 =>
      have := ih (by simp)
      simp only [joinChars, splitChars_append_sep, this, List.flatMap_cons]

theorem not_mem_of_mem_splitChars (sep : Char) (s l : List Char) (h : l ∈ splitChars sep s) :
    sep ∉ l := by
  induction s generalizing l with
  | nil =>
    simp [splitChars] at h
    simp [h]
  | cons c cs ih =>
    by_cases hc : c = sep
    · simp only [splitChars, hc, if_true, List.mem_cons] at h
      rcases h with h | h
      · simp [h]
      · exact ih l h
    · cases hsp : splitChars sep cs with
      | nil => exact absurd hsp (splitChars_ne_nil sep cs)
      | cons w ws =>
        simp only [splitChars, hc, if_false, hsp, List.mem_cons] at h
        rcases h with h | h
        · have hw := ih w (by simp [hsp])
          subst h
          intro hmem
          rcases List.mem_cons.mp hmem with e | e
          · exact hc e.symm
          · exact hw e
        · exact ih l (by simp [hsp, h])

theorem splitChars_joinChars_eq (sep : Char) (ws : List (List Char)) (hne : ws ≠ [])
    (h : ∀ w ∈ ws, sep ∉ w) : splitChars sep (joinChars sep ws) = ws := by
  rw [splitChars_joinChars sep ws hne]
  clear hne
  induction ws with
  | nil => rfl
  | cons w rest ih =>
    have hw := splitChars_of_not_mem sep w (h w (by simp))
    have hr := ih (fun x hx => h x (by simp [hx]))
    simp [List.flatMap_cons, hw, hr]

theorem mem_splitChars_joinChars (sep : Char) (ws : List (List Char)) (k : List Char)
    (hk : k ∈ ws) (hsep : sep ∉ k) : k ∈ splitChars sep (joinChars sep ws) := by
  have hne : ws ≠ [] := by
    intro e
    simp [e] at hk
  rw [splitChars_joinChars sep ws hne, List.mem_flatMap]
  exact ⟨k, hk, by simp [splitChars_of_not_mem sep k hsep]⟩

theorem Split_Join (elems : List String) (sep : Char) (hne : elems ≠ [])
    (h : ∀ x ∈ elems, sep ∉ x.data) : Split (Join elems sep) sep = elems := by
  unfold Split Join
  have h1 : splitChars sep (joinChars sep (elems.map String.data)) = elems.map String.data := by
    apply splitChars_joinChars_eq
    · simpa using hne
    · intro w hw
      rcases List.mem_map.mp hw with ⟨x, hx, rfl⟩
      exact h x hx
  simp only [h1, List.map_map]
  rw [List.map_congr_left (g := id)]
  · simp
  · intro x _
    rfl

/-! ## Reading and writing the configuration store -/

theorem lookup_set_entries (entries : List (String × String)) (key value : String)
    (h : entries.any (fun e => e.1 = key) = true) :
    (entries.map (fun e => if e.1 = key then (key, value) else e)).lookup key = some value := by
  induction entries with
  | nil => simp at h
  | cons e rest ih =>
    by_cases he : e.1 = key
    · cases e with
      | mk k v =>
        simp only at he
        subst he
        show List.lookup k ((if k = k then (k, value) else (k, v)) :: _) = _
        rw [if_pos rfl]
        simp [List.lookup]
    · have hrest : rest.any (fun e => e.1 = key) = true := by
        simpa [he] using h
      have hne : (key == e.1) = false := by
        simpa using fun e2 => he e2.symm
      simp only [List.map_cons, he, if_false]
      cases e with
      | mk k v =>
        simp only at hne
        simp only [List.lookup, hne]
        exact ih hrest

theorem lookup_append_new (entries : List (String × String)) (key value : String)
    (h : entries.any (fun e => e.1 = key) = false) :
    (entries ++ [(key, value)]).lookup key = some value := by
  induction entries with
  | nil => simp [List.lookup]
  | cons e rest ih =>
    cases e with
    | mk k v =>
      have hk : ¬ k = key := by
        intro e2
        simp [e2] at h
      have hrest : rest.any (fun e => e.1 = key) = false := by
        simp only [List.any_cons, Bool.or_eq_false_iff] at h
        exact h.2
      have hne : (key == k) = false := by
        simpa using fun e2 => hk e2.symm
      simp only [List.cons_append, List.lookup, hne]
      exact ih hrest

theorem value_setConfigurationValue (store : ConfigStore) (key value : String) :
    (setConfigurationValue store key value).value key = value := by
  unfold setConfigurationValue ConfigStore.value
  by_cases h : store.entries.any (fun e => e.1 = key) = true
  · simp only [h, if_true]
    rw [lookup_set_entries _ _ _ h]
    rfl
  · have h2 : store.entries.any (fun e => e.1 = key) = false := Bool.eq_false_iff.mpr h
    rw [if_neg h]
    simp only
    rw [lookup_append_new _ _ _ h2]
    rfl

theorem mem_keys_setConfigurationValue (store : ConfigStore) (key value : String) :
    key ∈ (setConfigurationValue store key value).entries.map Prod.fst := by
  unfold setConfigurationValue
  by_cases h : store.entries.any (fun e => e.1 = key) = true
  · simp only [h, if_true, List.mem_map]
    rcases List.any_eq_true.mp h with ⟨e, he, hk⟩
    have hk2 : e.1 = key := by simpa using hk
    exact ⟨(key, value), ⟨e, he, if_pos hk2⟩, rfl⟩
  · rw [if_neg h]
    simp

theorem hasConfigurationValue_of_mem_keys (store : ConfigStore) (key : String)
    (hmem : key ∈ store.entries.map Prod.fst) (hnl : '\n' ∉ key.data) :
    hasConfigurationValue store key = true := by
  unfold hasConfigurationValue OutputContainsLine ConfigStore.keyListing Split Join
  rw [List.contains_iff_exists_mem_beq]
  refine ⟨key, ?_, by simp⟩
  rw [List.mem_map]
  refine ⟨key.data, ?_, rfl⟩
  apply mem_splitChars_joinChars
  · exact List.mem_map.mpr ⟨key, hmem, rfl⟩
  · exact hnl

theorem not_newline_of_hasConfigurationValue (store : ConfigStore) (key : String)
    (h : hasConfigurationValue store key = true) : '\n' ∉ key.data := by
  unfold hasConfigurationValue OutputContainsLine Split at h
  rw [List.contains_iff_exists_mem_beq] at h
  rcases h with ⟨l, hl, hbeq⟩
  have hkl : key = l := by simpa using hbeq
  rcases List.mem_map.mp hl with ⟨w, hw, rfl⟩
  rw [hkl]
  exact not_mem_of_mem_splitChars '\n' _ w hw

theorem getLocalConfigurationValue_set (store : ConfigStore) (key value : String)
    (hnl : '\n' ∉ key.data) :
    getLocalConfigurationValue (setConfigurationValue store key value) key = value := by
  unfold getLocalConfigurationValue
  rw [hasConfigurationValue_of_mem_keys _ _ (mem_keys_setConfigurationValue store key value) hnl]
  simp [value_setConfigurationValue]

theorem branchKey_data (lead branchName tail : String) :
    (lead ++ branchName ++ tail).data = lead.data ++ branchName.data ++ tail.data := by
  simp [String.data_append]

theorem joinChars_eq_nil (sep : Char) (ws : List (List Char)) (h : joinChars sep ws = []) :
    ws = [] ∨ ws = [[]] := by
  cases ws with
  | nil => exact Or.inl rfl
  | cons w rest =>
    cases rest with
    | nil =>
      right
      simpa [joinChars] using h
    | cons w2 rest2 => simp [joinChars] at h

/-- C1 (as amended): when the branch name holds no line feed and every branch of the chain
    is non-empty and free of spaces, `SetAncestorBranches` followed by `GetAncestorBranches`
    gives back the chain, element by element in the same order, from any store. -/
theorem GetAncestorBranches_SetAncestorBranches (store : ConfigStore) (branchName : String)
    (chain : List String) (hname : '\n' ∉ branchName.data)
    (hchain : ∀ x ∈ chain, x ≠ "" ∧ ' ' ∉ x.data) :
    GetAncestorBranches (SetAncestorBranches store branchName chain) branchName = chain := by
  have hkey : '\n' ∉ ("git-town-branch." ++ branchName ++ ".ancestors").data := by
    rw [branchKey_data]
    simp only [List.mem_append, not_or]
    exact ⟨⟨by decide, hname⟩, by decide⟩
  unfold GetAncestorBranches SetAncestorBranches
  simp only [getLocalConfigurationValue_set _ _ _ hkey]
  by_cases hnil : chain = []
  · subst hnil
    rfl
  · have hne : Join chain ' ' ≠ "" := by
      intro e
      have hd : joinChars ' ' (chain.map String.data) = [] := by
        have := congrArg String.data e
        simpa [Join] using this
      rcases joinChars_eq_nil _ _ hd with h1 | h1
      · exact hnil (by simpa using h1)
      · cases chain with
        | nil => exact hnil rfl
        | cons x rest =>
          have hx : x.data = [] := by
            simp at h1
            exact h1.1
          exact (hchain x (by simp)).1 (String.ext hx)
    rw [if_neg hne]
    exact Split_Join chain ' ' hnil (fun x hx => (hchain x hx).2)

/-- C1, witness: the chain `main`, `dev` stored for the branch `feature`. -/
theorem GetAncestorBranches_SetAncestorBranches_witness :
    GetAncestorBranches (SetAncestorBranches ConfigStore.empty "feature" ["main", "dev"])
      "feature" = ["main", "dev"] :=
  GetAncestorBranches_SetAncestorBranches ConfigStore.empty "feature" ["main", "dev"]
    (by decide) (by decide)

/-- C1 as stated fails: a chain element with a space comes back as two elements, the chain
    of one empty name comes back empty, and under a branch name with a line feed nothing
    comes back. -/
theorem GetAncestorBranches_SetAncestorBranches_counterexample :
    GetAncestorBranches (SetAncestorBranches ConfigStore.empty "feature" ["hot fix"]) "feature"
        ≠ ["hot fix"]
    ∧ GetAncestorBranches (SetAncestorBranches ConfigStore.empty "feature" [""]) "feature" ≠ [""]
    ∧ GetAncestorBranches (SetAncestorBranches ConfigStore.empty "a\nb" ["main"]) "a\nb"
        ≠ ["main"] := by
  decide

/-! ## Keys of the branch hierarchy -/

theorem hasConfigurationValue_iff (store : ConfigStore) (key : String) :
    hasConfigurationValue store key = true ↔ key ∈ Split store.keyListing '\n' := by
  unfold hasConfigurationValue OutputContainsLine
  rw [List.contains_iff_exists_mem_beq]
  constructor
  · rintro ⟨l, hl, hbeq⟩
    have : key = l := by simpa using hbeq
    rw [this]
    exact hl
  · intro h
    exact ⟨key, h, by simp⟩

theorem matchKeyChars_build (lead tail mid : List Char) (hmid : '\n' ∉ mid) :
    matchKeyChars lead tail (lead ++ mid ++ tail) = true := by
  unfold matchKeyChars
  have h1 : lead.isPrefixOf (lead ++ mid ++ tail) = true := by
    rw [List.isPrefixOf_iff_prefix, List.append_assoc]
    exact List.prefix_append _ _
  have h2 : (lead ++ mid ++ tail).drop lead.length = mid ++ tail := by
    rw [List.append_assoc, List.drop_left]
  have h3 : tail.isSuffixOf (mid ++ tail) = true := by
    rw [List.isSuffixOf_iff_suffix]
    exact List.suffix_append _ _
  have h4 : (mid ++ tail).take ((mid ++ tail).length - tail.length) = mid := by
    rw [List.length_append, Nat.add_sub_cancel, List.take_left]
  rw [h1, h2, h3, h4]
  simp only [Bool.and_self, Bool.true_and, List.all_eq_true, decide_eq_true_eq]
  intro c hc e
  exact hmid (e ▸ hc)

theorem matchKeyChars_split (lead tail s : List Char) (h : matchKeyChars lead tail s = true) :
    s = lead ++ trimSuffixChars (trimPrefixChars s lead) tail ++ tail := by
  unfold matchKeyChars at h
  simp only [Bool.and_eq_true] at h
  rcases h with ⟨⟨h1, h2⟩, _⟩
  have hp : trimPrefixChars s lead = s.drop lead.length := by
    unfold trimPrefixChars
    rw [if_pos h1]
  have hs : trimSuffixChars (s.drop lead.length) tail
      = (s.drop lead.length).take ((s.drop lead.length).length - tail.length) := by
    unfold trimSuffixChars
    rw [if_pos h2]
  rw [hp, hs]
  rw [List.isPrefixOf_iff_prefix] at h1
  rw [List.isSuffixOf_iff_suffix] at h2
  rcases h1 with ⟨r, rfl⟩
  rw [List.drop_left] at h2 ⊢
  rcases h2 with ⟨m, rfl⟩
  rw [List.length_append, Nat.add_sub_cancel, List.take_left, List.append_assoc]

theorem trimChars_build (lead tail mid : List Char) :
    trimSuffixChars (trimPrefixChars (lead ++ mid ++ tail) lead) tail = mid := by
  have h1 : lead.isPrefixOf (lead ++ mid ++ tail) = true := by
    rw [List.isPrefixOf_iff_prefix, List.append_assoc]
    exact List.prefix_append _ _
  have h3 : tail.isSuffixOf (mid ++ tail) = true := by
    rw [List.isSuffixOf_iff_suffix]
    exact List.suffix_append _ _
  unfold trimPrefixChars
  rw [if_pos h1, List.append_assoc, List.drop_left]
  unfold trimSuffixChars
  rw [if_pos h3, List.length_append, Nat.add_sub_cancel, List.take_left]

theorem MatchString_key (p : KeyPattern) (branchName : String) (h : '\n' ∉ branchName.data) :
    p.MatchString (p.lead ++ branchName ++ p.tail) = true := by
  unfold KeyPattern.MatchString
  rw [branchKey_data]
  exact matchKeyChars_build _ _ _ h

theorem key_of_MatchString (p : KeyPattern) (line : String) (h : p.MatchString line = true) :
    line = p.lead ++ TrimSuffix (TrimPrefix line p.lead) p.tail ++ p.tail := by
  apply String.ext
  rw [branchKey_data]
  exact matchKeyChars_split _ _ _ h

theorem Trim_key (lead tail branchName : String) :
    TrimSuffix (TrimPrefix (lead ++ branchName ++ tail) lead) tail = branchName := by
  apply String.ext
  unfold TrimSuffix TrimPrefix
  simp only [branchKey_data]
  exact trimChars_build _ _ _

theorem not_newline_of_key (lead branchName tail : String)
    (h : '\n' ∉ (lead ++ branchName ++ tail).data) : '\n' ∉ branchName.data := by
  rw [branchKey_data] at h
  intro hmem
  exact h (by simp [hmem])

theorem mem_GetChildBranches_iff (store : ConfigStore) (p c : String) :
    c ∈ GetChildBranches store p ↔
      hasConfigurationValue store ("git-town-branch." ++ c ++ ".parent") = true
        ∧ GetParentBranch store c = p := by
  unfold GetChildBranches getConfigurationKeysMatching GetParentBranch
  simp only [List.mem_map, List.mem_filter, decide_eq_true_eq]
  constructor
  · rintro ⟨key, ⟨⟨hline, hmatch⟩, hval⟩, hc⟩
    have hkey := key_of_MatchString parentKeyPattern key hmatch
    have hkey2 : key = "git-town-branch." ++ c ++ ".parent" := by
      rw [← hc]
      exact hkey
    rw [← hkey2]
    exact ⟨(hasConfigurationValue_iff store key).mpr hline, hval⟩
  · rintro ⟨hhas, hval⟩
    have hnl := not_newline_of_key _ _ _ (not_newline_of_hasConfigurationValue _ _ hhas)
    exact ⟨"git-town-branch." ++ c ++ ".parent",
      ⟨⟨(hasConfigurationValue_iff store _).mp hhas, MatchString_key parentKeyPattern c hnl⟩,
        hval⟩, Trim_key "git-town-branch." ".parent" c⟩

/-- C2 (as amended): in every store reached from the empty one by `SetParentBranch` and
    `DeleteParentBranch` calls, and for every non-empty branch name `p`, the branches that
    `GetChildBranches p` returns are exactly the branches `c` with `GetParentBranch c = p`. -/
theorem mem_GetChildBranches_storeAfter (edits : List ParentEdit) (p c : String)
    (hp : p ≠ "") :
    c ∈ GetChildBranches (storeAfter edits) p ↔ GetParentBranch (storeAfter edits) c = p := by
  rw [mem_GetChildBranches_iff]
  constructor
  · exact fun h => h.2
  · intro h
    refine ⟨?_, h⟩
    by_contra hhas
    apply hp
    rw [← h]
    unfold GetParentBranch getLocalConfigurationValue
    rw [if_neg hhas]

/-- C2, witness: after `feature` and `fix` are put under `main` and `fix` is taken out
    again, `feature` is a child of `main`. -/
theorem mem_GetChildBranches_storeAfter_witness :
    "main" ≠ "" ∧
    ("feature" ∈ GetChildBranches
        (storeAfter [.setParent "feature" "main", .setParent "fix" "main", .deleteParent "fix"])
        "main" ↔
      GetParentBranch
        (storeAfter [.setParent "feature" "main", .setParent "fix" "main", .deleteParent "fix"])
        "feature" = "main") :=
  ⟨by decide, mem_GetChildBranches_storeAfter _ "main" "feature" (by decide)⟩

/-- C2 as stated fails for the empty name: once `feature` is put under `main`,
    `GetParentBranch "main"` is the empty string, yet `GetChildBranches ""` does not
    return `main`. -/
theorem mem_GetChildBranches_storeAfter_counterexample :
    ¬ ("main" ∈ GetChildBranches (storeAfter [.setParent "feature" "main"]) "" ↔
        GetParentBranch (storeAfter [.setParent "feature" "main"]) "main" = "") := by
  decide

/-! ## Choosing an author -/

theorem parseDigits_eq_foldl (cs : List Char) (acc : Nat) (hne : cs ≠ [])
    (hd : ∀ c ∈ cs, isDigit c = true) :
    parseDigits acc cs = some (cs.foldl (fun n c => 10 * n + (c.toNat - 48)) acc) := by
  induction cs generalizing acc with
  | nil => exact absurd rfl hne
  | cons c rest ih =>
    have hc : isDigit c = true := hd c (by simp)
    cases rest with
    | nil => simp [parseDigits, hc]
    | cons c2 rest2 =>
      have := ih (10 * acc + (c.toNat - 48)) (by simp) (fun x hx => hd x (by simp [hx]))
      simp only [parseDigits, hc, if_true, this, List.foldl_cons]

theorem matchNumeric_iff (s : String) :
    matchNumeric s = true ↔ s.data ≠ [] ∧ ∀ c ∈ s.data, isDigit c = true := by
  unfold matchNumeric
  simp [List.isEmpty_iff]

theorem Atoi_of_digits (s : String) (h : matchNumeric s = true) :
    Atoi s = if decimalValue s ≤ maxInt then .ok (decimalValue s : Int)
      else .error "value out of range" := by
  rcases (matchNumeric_iff s).mp h with ⟨hne, hd⟩
  have hp := parseDigits_eq_foldl s.data 0 hne hd
  unfold Atoi decimalValue
  split
  · rename_i cs hs
    have := hd '-' (by simp [hs])
    exact absurd this (by decide)
  · rename_i cs hs
    have := hd '+' (by simp [hs])
    exact absurd this (by decide)
  · rw [hp]

theorem parseAuthorNumber_in_range (input : String) (authors : List branchAuthor)
    (h : matchNumeric input = true) (h1 : 1 ≤ decimalValue input)
    (h2 : decimalValue input ≤ authors.length) (hlen : authors.length ≤ maxInt) :
    ∃ a, authors[decimalValue input - 1]? = some a
      ∧ parseAuthorNumber input authors = .ok a.NameAndEmail := by
  have hlt : decimalValue input - 1 < authors.length := by omega
  refine ⟨authors[decimalValue input - 1], List.getElem?_eq_getElem hlt, ?_⟩
  unfold parseAuthorNumber
  rw [Atoi_of_digits input h, if_pos (le_trans h2 hlen)]
  have hcond : (decimalValue input : Int) ≥ 1 ∧ (decimalValue input : Int) ≤ (authors.length : Int) := by
    constructor <;> omega
  have hidx : ((decimalValue input : Int) - 1).toNat = decimalValue input - 1 := by omega
  simp only [hcond, and_self, if_true, hidx, List.getElem?_eq_getElem hlt]

theorem parseAuthorNumber_out_of_range (input : String) (authors : List branchAuthor)
    (h : matchNumeric input = true) (hfit : decimalValue input ≤ maxInt)
    (hout : decimalValue input < 1 ∨ authors.length < decimalValue input) :
    parseAuthorNumber input authors = .error "Invalid author number" := by
  unfold parseAuthorNumber
  rw [Atoi_of_digits input h, if_pos hfit]
  have hcond : ¬ ((decimalValue input : Int) ≥ 1 ∧ (decimalValue input : Int) ≤ (authors.length : Int)) := by
    omega
  simp only [hcond, if_false]

/-- C3: for a non-empty list of authors (a Go slice, so of a length that fits `int`),
    `parseAuthor` returns without error: the first author on the empty input, the `k`-th
    author (counted from 1) on a text of decimal digits denoting `k` with `1 ≤ k ≤ N`, and
    the input itself on a non-empty input that is not a text of decimal digits. -/
theorem parseAuthor_selects (authors : List branchAuthor) (hne : authors ≠ [])
    (hlen : authors.length ≤ maxInt) :
    parseAuthor "" authors = .ok (authors.head hne).NameAndEmail
    ∧ (∀ input : String, matchNumeric input = true → 1 ≤ decimalValue input →
        decimalValue input ≤ authors.length →
        ∃ a, authors[decimalValue input - 1]? = some a
          ∧ parseAuthor input authors = .ok a.NameAndEmail)
    ∧ (∀ input : String, input ≠ "" → matchNumeric input = false →
        parseAuthor input authors = .ok input) := by
  refine ⟨?_, ?_, ?_⟩
  · cases authors with
    | nil => exact absurd rfl hne
    | cons a rest => rfl
  · intro input h h1 h2
    unfold parseAuthor
    rw [if_pos h]
    exact parseAuthorNumber_in_range input authors h h1 h2 hlen
  · intro input hin h
    unfold parseAuthor
    simp [h, hin]

/-- C3, witness: with the authors `A <a@x>` and `B <b@x>`, the inputs `""`, `"2"` and
    `"custom@nobody"`. -/
theorem parseAuthor_selects_witness :
    parseAuthor "" [⟨"A <a@x>", "5"⟩, ⟨"B <b@x>", "2"⟩] = .ok "A <a@x>"
    ∧ (∃ a, [(⟨"A <a@x>", "5"⟩ : branchAuthor), ⟨"B <b@x>", "2"⟩][decimalValue "2" - 1]? = some a
        ∧ parseAuthor "2" [⟨"A <a@x>", "5"⟩, ⟨"B <b@x>", "2"⟩] = .ok a.NameAndEmail)
    ∧ parseAuthor "custom@nobody" [⟨"A <a@x>", "5"⟩, ⟨"B <b@x>", "2"⟩] = .ok "custom@nobody" :=
  have h := parseAuthor_selects [⟨"A <a@x>", "5"⟩, ⟨"B <b@x>", "2"⟩] (by decide) (by decide)
  ⟨h.1, h.2.1 "2" (by decide) (by decide) (by decide),
    h.2.2 "custom@nobody" (by decide) (by decide)⟩

/-- The part of C4 that the code does: a text of decimal digits whose number fits `int` and
    lies outside `1..N` gives the error `Invalid author number`, which `askForAuthor`
    shows before it reads the next line. -/
theorem parseAuthor_number_out_of_range (authors : List branchAuthor) (input : String)
    (reported rest : List String) (h : matchNumeric input = true)
    (hfit : decimalValue input ≤ maxInt)
    (hout : decimalValue input < 1 ∨ authors.length < decimalValue input) :
    parseAuthor input authors = .error "Invalid author number"
    ∧ askForAuthor authors ⟨input :: rest, reported⟩
        = askForAuthor authors ⟨rest, reported ++ ["Invalid author number"]⟩ := by
  have hp : parseAuthor input authors = .error "Invalid author number" := by
    unfold parseAuthor
    rw [if_pos h]
    exact parseAuthorNumber_out_of_range input authors h hfit hout
  refine ⟨hp, ?_⟩
  simp only [askForAuthor, askForAuthorLoop, hp]

/-- C4 fails on the code: on the input `99999999999999999999`, a text of decimal digits
    whose number is outside `1..2` and too large for `int`, `parseAuthor` aborts the process
    where the claim has the error `Invalid author number`, and `askForAuthor` never reads
    the next line. -/
theorem parseAuthor_huge_number_aborts :
    matchNumeric "99999999999999999999" = true
    ∧ parseAuthor "99999999999999999999" [⟨"A <a@x>", "5"⟩, ⟨"B <b@x>", "2"⟩]
        = .fatal "Error parsing string to integer"
    ∧ parseAuthor "99999999999999999999" [⟨"A <a@x>", "5"⟩, ⟨"B <b@x>", "2"⟩]
        ≠ .error "Invalid author number"
    ∧ askForAuthor [⟨"A <a@x>", "5"⟩, ⟨"B <b@x>", "2"⟩] ⟨["99999999999999999999", "1"], []⟩
        = .aborted "Error parsing string to integer" ⟨["1"], []⟩ := by
  decide

/-! ## Sync state -/

/-- C5: `IsBranchInSync b` is true exactly when `b` has no tracking branch or the commit
    hash of `b` is the commit hash of `GetTrackingBranchName b`, which is `"origin/" + b`;
    so it is true whenever `b` has no tracking branch. -/
theorem IsBranchInSync_iff (repo : Repository) (branchName : String) :
    (IsBranchInSync repo branchName = true ↔
      (HasTrackingBranch repo branchName = false
        ∨ repo.GetBranchSha branchName = repo.GetBranchSha (GetTrackingBranchName branchName)))
    ∧ GetTrackingBranchName branchName = "origin/" ++ branchName
    ∧ (HasTrackingBranch repo branchName = false → IsBranchInSync repo branchName = true) := by
  refine ⟨?_, rfl, ?_⟩
  · unfold IsBranchInSync
    cases h : HasTrackingBranch repo branchName <;> simp
  · intro h
    unfold IsBranchInSync
    simp [h]

/-- C5, witness: the branch `feature` has no tracking branch when only `origin/main` is
    listed, and is in sync. -/
theorem IsBranchInSync_iff_witness :
    HasTrackingBranch ⟨"  origin/main", fun b => if b = "feature" then "1f3a" else "9c2e"⟩
        "feature" = false
    ∧ IsBranchInSync ⟨"  origin/main", fun b => if b = "feature" then "1f3a" else "9c2e"⟩
        "feature" = true :=
  ⟨by decide, (IsBranchInSync_iff _ "feature").2.2 (by decide)⟩

/-! ## Clearing the ancestor caches -/

theorem keys_removeConfigurationValue_subset (store : ConfigStore) (key k : String)
    (h : k ∈ (removeConfigurationValue store key).entries.map Prod.fst) :
    k ∈ store.entries.map Prod.fst := by
  unfold removeConfigurationValue at h
  rcases List.mem_map.mp h with ⟨e, he, rfl⟩
  exact List.mem_map.mpr ⟨e, (List.mem_filter.mp he).1, rfl⟩

theorem not_mem_keys_removeConfigurationValue (store : ConfigStore) (key : String) :
    key ∉ (removeConfigurationValue store key).entries.map Prod.fst := by
  unfold removeConfigurationValue
  intro h
  rcases List.mem_map.mp h with ⟨e, he, hk⟩
  have := (List.mem_filter.mp he).2
  simp [hk] at this

theorem keys_foldl_remove_subset (keys : List String) (store : ConfigStore) (k : String)
    (h : k ∈ (keys.foldl removeConfigurationValue store).entries.map Prod.fst) :
    k ∈ store.entries.map Prod.fst := by
  induction keys generalizing store with
  | nil => exact h
  | cons key rest ih =>
    exact keys_removeConfigurationValue_subset store key k (ih _ h)

theorem not_mem_keys_foldl_remove (keys : List String) (store : ConfigStore) (k : String)
    (hk : k ∈ keys) : k ∉ (keys.foldl removeConfigurationValue store).entries.map Prod.fst := by
  induction keys generalizing store with
  | nil => simp at hk
  | cons key rest ih =>
    by_cases hrest : k ∈ rest
    · exact ih _ hrest
    · have hkey : k = key := by
        rcases List.mem_cons.mp hk with e | e
        · exact e
        · exact absurd e hrest
      subst hkey
      intro hmem
      exact not_mem_keys_removeConfigurationValue store k
        (keys_foldl_remove_subset rest _ k hmem)

theorem value_of_not_mem_keys (store : ConfigStore) (key : String)
    (h : key ∉ store.entries.map Prod.fst) : store.value key = "" := by
  unfold ConfigStore.value
  have : store.entries.lookup key = none := by
    generalize store.entries = entries at h
    induction entries with
    | nil => rfl
    | cons e rest ih =>
      cases e with
      | mk k v =>
        have hk : (key == k) = false := by
          simpa using fun e2 : key = k => h (by simp [e2])
        simp only [List.lookup, hk]
        exact ih (fun hm => h (by simp [hm]))
  rw [this]
  rfl

theorem getLocalConfigurationValue_DeleteAllAncestorBranches (store : ConfigStore)
    (branchName : String) :
    getLocalConfigurationValue (DeleteAllAncestorBranches store)
      ("git-town-branch." ++ branchName ++ ".ancestors") = "" := by
  unfold getLocalConfigurationValue
  split
  · rename_i hhas
    apply value_of_not_mem_keys
    intro hmem
    have hnl := not_newline_of_hasConfigurationValue _ _ hhas
    have hold := keys_foldl_remove_subset _ store _ hmem
    have hline := (hasConfigurationValue_iff store _).mp
      (hasConfigurationValue_of_mem_keys store _ hold hnl)
    have hmatch := MatchString_key ancestorsKeyPattern branchName (not_newline_of_key _ _ _ hnl)
    have hlisted : ("git-town-branch." ++ branchName ++ ".ancestors")
        ∈ getConfigurationKeysMatching store ancestorsKeyPattern := by
      unfold getConfigurationKeysMatching
      exact List.mem_filter.mpr ⟨hline, hmatch⟩
    exact not_mem_keys_foldl_remove _ store _ hlisted hmem
  · rfl

/-- C6: after `DeleteAllAncestorBranches`, from any store and for any branch name,
    `HasCompiledAncestorBranches` is false and `GetAncestorBranches` is the empty list. -/
theorem HasCompiledAncestorBranches_DeleteAllAncestorBranches (store : ConfigStore)
    (branchName : String) :
    HasCompiledAncestorBranches (DeleteAllAncestorBranches store) branchName = false
    ∧ GetAncestorBranches (DeleteAllAncestorBranches store) branchName = [] := by
  have h : GetAncestorBranches (DeleteAllAncestorBranches store) branchName = [] := by
    unfold GetAncestorBranches
    simp only [getLocalConfigurationValue_DeleteAllAncestorBranches, if_true]
  refine ⟨?_, h⟩
  unfold HasCompiledAncestorBranches
  rw [h]
  rfl

/-! ## Perennial branches -/

/-- C7: when the stored perennial branches and the branch `b` are non-empty names without
    spaces, `GetPerennialBranches` after `AddToPerennialBranches b` is the stored list
    followed by `b`; nothing is deduplicated, `b` occurs once more than before. -/
theorem GetPerennialBranches_AddToPerennialBranches (store : ConfigStore) (b : String)
    (hstored : ∀ x ∈ GetPerennialBranches store, x ≠ "" ∧ ' ' ∉ x.data)
    (hb : b ≠ "" ∧ ' ' ∉ b.data) :
    GetPerennialBranches (AddToPerennialBranches store b) = GetPerennialBranches store ++ [b]
    ∧ (GetPerennialBranches (AddToPerennialBranches store b)).count b
        = (GetPerennialBranches store).count b + 1 := by
  have hget : GetPerennialBranches (AddToPerennialBranches store b)
      = GetPerennialBranches store ++ [b] := by
    generalize hL : GetPerennialBranches store = L at hstored
    unfold AddToPerennialBranches SetPerennialBranches
    rw [hL]
    unfold GetPerennialBranches
    simp only [getLocalConfigurationValue_set _ _ _
      (by decide : '\n' ∉ ("git-town.perennial-branch-names" : String).data)]
    have hne : Join (L ++ [b]) ' ' ≠ "" := by
      intro e
      have hd : joinChars ' ' ((L ++ [b]).map String.data) = [] := by
        have := congrArg String.data e
        simpa [Join] using this
      rcases joinChars_eq_nil _ _ hd with h1 | h1
      · simp at h1
      · cases L with
        | nil =>
          have hx : b.data = [] := by simpa using h1
          exact hb.1 (String.ext hx)
        | cons x rest => simp at h1
    rw [if_neg hne]
    apply Split_Join
    · simp
    · intro x hx
      rcases List.mem_append.mp hx with h1 | h1
      · exact (hstored x h1).2
      · have : x = b := by simpa using h1
        rw [this]
        exact hb.2
  refine ⟨hget, ?_⟩
  rw [hget]
  simp

/-- C7, witness: `main` added to the stored perennial branches `main`, `qa` is stored a
    second time. -/
theorem GetPerennialBranches_AddToPerennialBranches_witness :
    GetPerennialBranches
        (AddToPerennialBranches (SetPerennialBranches ConfigStore.empty ["main", "qa"]) "main")
      = GetPerennialBranches (SetPerennialBranches ConfigStore.empty ["main", "qa"]) ++ ["main"]
    ∧ (GetPerennialBranches
        (AddToPerennialBranches (SetPerennialBranches ConfigStore.empty ["main", "qa"])
          "main")).count "main"
      = (GetPerennialBranches (SetPerennialBranches ConfigStore.empty ["main", "qa"])).count
          "main" + 1 :=
  GetPerennialBranches_AddToPerennialBranches
    (SetPerennialBranches ConfigStore.empty ["main", "qa"]) "main" (by decide) (by decide)

/-! ## The author of a squash commit -/

/-- C8: when the commit statistics of the branch hold exactly one author,
    `GetSquashCommitAuthor` returns that author's `NameAndEmail` and leaves the console as
    it was: no pending input line is read. -/
theorem GetSquashCommitAuthor_single (output : String) (console : Console)
    (author : branchAuthor) (h : getBranchAuthors output = .ok [author]) :
    GetSquashCommitAuthor output console = .done author.NameAndEmail console := by
  unfold GetSquashCommitAuthor
  rw [h]

/-- C8, witness: the statistics `3<tab>A <a@x>` with two input lines pending. -/
theorem GetSquashCommitAuthor_single_witness :
    GetSquashCommitAuthor "     3\tA <a@x>" ⟨["2", "custom@nobody"], []⟩
      = .done "A <a@x>" ⟨["2", "custom@nobody"], []⟩ :=
  GetSquashCommitAuthor_single "     3\tA <a@x>" ⟨["2", "custom@nobody"], []⟩
    ⟨"A <a@x>", "3"⟩ (by decide)

/-! ## Dry runs -/

/-- C9: in dry-run mode `RunCommand` returns a nil error and starts no process; the command
    `git checkout <branch>` sets the current-branch override to `<branch>`, every other
    command leaves the dry-run state as it was. -/
theorem RunCommand_dry_run (host : Host) (dryrun : DryRun) (cmd : List String)
    (hactive : dryrun.active = true) :
    (RunCommand host dryrun cmd).panicked = false
    ∧ (RunCommand host dryrun cmd).err = none
    ∧ (RunCommand host dryrun cmd).started = []
    ∧ (∀ branch, cmd = ["git", "checkout", branch] →
        (RunCommand host dryrun cmd).dryrun = ⟨true, branch⟩)
    ∧ ((∀ branch, cmd ≠ ["git", "checkout", branch]) →
        (RunCommand host dryrun cmd).dryrun = dryrun) := by
  unfold RunCommand
  rw [if_pos hactive]
  split
  · rename_i branch
    refine ⟨rfl, rfl, rfl, ?_, ?_⟩
    · intro b hb
      have : branch = b := by simpa using hb
      subst this
      cases dryrun with
      | mk active current =>
        simp only at hactive
        subst hactive
        rfl
    · intro hno
      exact absurd rfl (hno branch)
  · rename_i hno
    refine ⟨rfl, rfl, rfl, ?_, ?_⟩
    · intro b hb
      exact absurd hb (hno b)
    · intro _
      rfl

/-- C9, witness: in a dry run on `main`, `git checkout feature` moves the override to
    `feature` and `git push` leaves it on `main`. -/
theorem RunCommand_dry_run_witness :
    (RunCommand ⟨"linux", fun _ => some "exit status 1"⟩ ⟨true, "main"⟩
        ["git", "checkout", "feature"]).dryrun = ⟨true, "feature"⟩
    ∧ (RunCommand ⟨"linux", fun _ => some "exit status 1"⟩ ⟨true, "main"⟩
        ["git", "push"]).dryrun = ⟨true, "main"⟩ :=
  ⟨(RunCommand_dry_run ⟨"linux", fun _ => some "exit status 1"⟩ ⟨true, "main"⟩
      ["git", "checkout", "feature"] rfl).2.2.2.1 "feature" rfl,
   (RunCommand_dry_run ⟨"linux", fun _ => some "exit status 1"⟩ ⟨true, "main"⟩
      ["git", "push"] rfl).2.2.2.2 (fun _ h => by simp at h)⟩

/-! ## Looking up a branch -/

/-- C10 fails on the code: with the local branch `x/remotes/origin/y` listed, `HasBranch`
    finds a branch `x/y`, although no line of the listing is `x/y` after the marker, the
    white space and a leading `remotes/origin/` are removed. -/
theorem HasBranch_inner_remote_marker :
    HasBranch "* main\n  x/remotes/origin/y" "x/y" = true
    ∧ branchExistsSpec "* main\n  x/remotes/origin/y" "x/y" = false := by
  decide

/-! ## Reading the commit statistics -/

theorem splitChars_eq_takeWhile (sep : Char) (s : List Char) :
    splitChars sep s = s.takeWhile (fun c => c ≠ sep)
      :: (if sep ∈ s then splitChars sep ((s.dropWhile (fun c => c ≠ sep)).drop 1) else []) := by
  induction s with
  | nil => simp [splitChars]
  | cons c cs ih =>
    by_cases hc : c = sep
    · subst hc
      simp [splitChars]
    · have hne : ¬ sep = c := fun e => hc e.symm
      rw [splitChars, if_neg hc, ih]
      by_cases hmem : sep ∈ cs
      · simp [hc, hne, hmem]
      · simp [hc, hne, hmem]

theorem Split_tab_of_mem (line : String) (h : '\t' ∈ (TrimSpace line).data) :
    ∃ more, Split (TrimSpace line) '\t'
      = (authorOfLineSpec line).NumberOfCommits :: (authorOfLineSpec line).NameAndEmail
          :: more := by
  unfold Split authorOfLineSpec beforeTab afterTab
  rw [splitChars_eq_takeWhile, if_pos h, splitChars_eq_takeWhile]
  exact ⟨_, rfl⟩

theorem Split_tab_of_not_mem (line : String) (h : '\t' ∉ (TrimSpace line).data) :
    Split (TrimSpace line) '\t' = [TrimSpace line] := by
  unfold Split
  rw [splitChars_of_not_mem _ _ h]
  rfl

theorem getBranchAuthorsLoop_cons (result : List branchAuthor) (line : String)
    (rest : List String) :
    getBranchAuthorsLoop result (line :: rest)
      = if '\t' ∈ (TrimSpace line).data then
          getBranchAuthorsLoop (result ++ [authorOfLineSpec line]) rest
        else .fatal "index out of range" := by
  by_cases h : '\t' ∈ (TrimSpace line).data
  · rcases Split_tab_of_mem line h with ⟨more, hsplit⟩
    rw [if_pos h, getBranchAuthorsLoop, hsplit]
  · rw [if_neg h, getBranchAuthorsLoop, Split_tab_of_not_mem line h]

theorem getBranchAuthorsLoop_ok (lines : List String) (result : List branchAuthor)
    (h : ∀ line ∈ lines, '\t' ∈ (TrimSpace line).data) :
    getBranchAuthorsLoop result lines = .ok (result ++ lines.map authorOfLineSpec) := by
  induction lines generalizing result with
  | nil => simp [getBranchAuthorsLoop]
  | cons line rest ih =>
    rw [getBranchAuthorsLoop_cons, if_pos (h line (by simp)),
      ih _ (fun l hl => h l (by simp [hl]))]
    simp

theorem getBranchAuthorsLoop_fatal (lines : List String) (result : List branchAuthor)
    (h : ∃ line ∈ lines, '\t' ∉ (TrimSpace line).data) :
    getBranchAuthorsLoop result lines = .fatal "index out of range" := by
  induction lines generalizing result with
  | nil =>
    rcases h with ⟨line, hmem, _⟩
    simp at hmem
  | cons line rest ih =>
    rw [getBranchAuthorsLoop_cons]
    by_cases hl : '\t' ∈ (TrimSpace line).data
    · rw [if_pos hl]
      apply ih
      rcases h with ⟨bad, hmem, hbad⟩
      rcases List.mem_cons.mp hmem with e | e
      · subst e
        exact absurd hl hbad
      · exact ⟨bad, e, hbad⟩
    · rw [if_neg hl]

/-- C11: `getBranchAuthors` aborts the process exactly when some line of the output, cut at
    line feeds, has no tab once its surrounding white space is trimmed; otherwise it
    returns one author per line in the order of the lines, `NumberOfCommits` being the text
    of the trimmed line before its first tab and `NameAndEmail` the text after that tab up
    to the next one. -/
theorem getBranchAuthors_fatal_iff (output : String) :
    ((∃ message, getBranchAuthors output = .fatal message) ↔
      ∃ line ∈ Split output '\n', '\t' ∉ (TrimSpace line).data)
    ∧ ((∀ line ∈ Split output '\n', '\t' ∈ (TrimSpace line).data) →
        getBranchAuthors output = .ok ((Split output '\n').map authorOfLineSpec)) := by
  have hok : (∀ line ∈ Split output '\n', '\t' ∈ (TrimSpace line).data) →
      getBranchAuthors output = .ok ((Split output '\n').map authorOfLineSpec) := by
    intro h
    unfold getBranchAuthors
    rw [getBranchAuthorsLoop_ok _ _ h]
    rfl
  refine ⟨⟨?_, ?_⟩, hok⟩
  · rintro ⟨message, hfatal⟩
    by_contra hnone
    have hall : ∀ line ∈ Split output '\n', '\t' ∈ (TrimSpace line).data := by
      intro line hline
      by_contra hbad
      exact hnone ⟨line, hline, hbad⟩
    rw [hok hall] at hfatal
    cases hfatal
  · intro h
    exact ⟨"index out of range", getBranchAuthorsLoop_fatal _ _ h⟩

/-- C11, witness: two well-formed lines give two authors in their order; the empty output
    is one empty line and aborts. -/
theorem getBranchAuthors_fatal_iff_witness :
    getBranchAuthors "     5\tA <a@x>\n     2\tB <b@x>"
        = .ok ((Split "     5\tA <a@x>\n     2\tB <b@x>" '\n').map authorOfLineSpec)
    ∧ ∃ message, getBranchAuthors "" = .fatal message :=
  ⟨(getBranchAuthors_fatal_iff "     5\tA <a@x>\n     2\tB <b@x>").2 (by decide),
   (getBranchAuthors_fatal_iff "").1.mpr (by decide)⟩

end GitTown
